import Mathlib

/-!
Verification of the Sudoku game core (`src/Sudoku/sudoku.py`).

The board is modelled as a total function from `Nat × Nat` coordinates to cell
contents; the game only ever reads and writes the 81 positions with both
coordinates below 9 (`allPositions`).  Machine integers of the source are
modelled as `Nat` / `Int`; Python timestamps (floats truncated with `int()`)
are modelled as `Int`.  The source's `random.shuffle(numbers)` inside `_solve`
is modelled by a stream `sh : Nat → List Nat` handing each solver invocation
its candidate order (invocations are numbered by a counter threaded through the
recursion); `ShPerm sh` states that every handed order is a permutation of
`[1, …, 9]`, which is exactly what shuffling `list(range(1, 10))` produces.
-/

namespace Sudoku

/-- A board coordinate: `(row, column)`. -/
abbrev Pos := Nat × Nat

/-- Value-only view of the 9×9 board (what `SudokuGame._solve` reads and
writes: `self.board[i][j].value`).  `0` means empty. -/
abbrev VBoard := Pos → Nat

/-- The 81 on-board positions in row-major order, the order in which
`_find_empty` and the conflict/generation loops scan the board. -/
def allPositions : List Pos :=
  (List.range 9).flatMap fun i => (List.range 9).map fun j => (i, j)

/-- Two positions lie in a common row, column, or 3×3 box. -/
def sameUnit (p q : Pos) : Prop :=
  p.1 = q.1 ∨ p.2 = q.2 ∨ (p.1 / 3 = q.1 / 3 ∧ p.2 / 3 = q.2 / 3)

instance (p q : Pos) : Decidable (sameUnit p q) := by
  unfold sameUnit; infer_instance

/-- Model of `SudokuGame._find_empty`: first empty cell in row-major scan order. -/
def findEmpty (b : VBoard) : Option Pos :=
  allPositions.find? fun p => b p == 0

/-- Model of `SudokuGame._is_valid(pos, num)`: `num` clashes with no other cell of the
row, the column, or the 3×3 box of `pos` (the cell `pos` itself excluded).
The three conjuncts mirror the three scan loops of the source. -/
def isValid (b : VBoard) (p : Pos) (n : Nat) : Bool :=
  ((List.range 9).all fun j => j == p.2 || b (p.1, j) != n) &&
  ((List.range 9).all fun i => i == p.1 || b (i, p.2) != n) &&
  ((List.range 3).all fun di => (List.range 3).all fun dj =>
    (3 * (p.1 / 3) + di, 3 * (p.2 / 3) + dj) == p ||
    b (3 * (p.1 / 3) + di, 3 * (p.2 / 3) + dj) != n)

/-- Writing a value into one cell (`self.board[row][col].value = num`). -/
def setCell (b : VBoard) (p : Pos) (n : Nat) : VBoard :=
  Function.update b p n

/-- Number of empty cells; used as recursion fuel for the solver (each
recursive level of `_solve` fills exactly one cell, so this bounds the
recursion depth of the source). -/
def emptyCount (b : VBoard) : Nat :=
  (allPositions.filter fun p => b p == 0).length

/-- The candidate loop of `_solve`: try each number of the shuffled list in
turn at cell `p`; on a valid placement run the continuation `f` (the recursive
solve) and stop at its first success; on failure the cell is restored (the
board is passed unchanged to the next iteration, matching the source's
`self.board[row][col].value = 0`).  The second component threads the
invocation counter of the shuffle stream. -/
def tryNums (f : VBoard → Nat → Option VBoard × Nat) (p : Pos) :
    List Nat → VBoard → Nat → Option VBoard × Nat
  | [], _, k => (none, k)
  | n :: ns, b, k =>
    if isValid b p n then
      match f (setCell b p n) k with
      | (some b', k') => (some b', k')
      | (none, k') => tryNums f p ns b k'
    else
      tryNums f p ns b k

/-- Model of `SudokuGame._solve`, with explicit fuel: if no cell is empty, succeed with
the current board; otherwise shuffle `[1, …, 9]` (draw `sh k`) and run the
candidate loop on the first empty cell.  With `fuel = emptyCount b` the fuel
can never run out (each level fills a cell), so this is the source's
unbounded recursion. -/
def solveAux (sh : Nat → List Nat) : Nat → VBoard → Nat → Option VBoard × Nat
  | 0, b, k =>
    match findEmpty b with
    | none => (some b, k)
    | some _ => (none, k)
  | fuel + 1, b, k =>
    match findEmpty b with
    | none => (some b, k)
    | some p => tryNums (fun b' k' => solveAux sh fuel b' k') p (sh k) b (k + 1)

/-- Model of `SudokuGame._solve` run on a board: `some b'` means the source returns
`True` leaving the board equal to `b'`; `none` means it returns `False`
(backtracking restores the board to its input state). -/
def pySolve (sh : Nat → List Nat) (b : VBoard) : Option VBoard :=
  (solveAux sh (emptyCount b) b 0).1

/-- The shuffle stream hypothesis: every drawn candidate order is a
permutation of `list(range(1, 10)) = [1, …, 9]`. -/
def ShPerm (sh : Nat → List Nat) : Prop :=
  ∀ k, (sh k).Perm (List.range' 1 9)

/-! ### Semantic predicates on value boards -/

/-- Every on-board cell is nonempty. -/
def Complete (b : VBoard) : Prop := ∀ i < 9, ∀ j < 9, b (i, j) ≠ 0

/-- Every on-board cell holds a value at most 9 (0 meaning empty). -/
def InRange (b : VBoard) : Prop := ∀ i < 9, ∀ j < 9, b (i, j) ≤ 9

/-- No two distinct cells of a common row, column, or box hold the same
nonzero value. -/
def Consistent (b : VBoard) : Prop :=
  ∀ i < 9, ∀ j < 9, ∀ i' < 9, ∀ j' < 9,
    (i, j) ≠ ((i', j') : Pos) → sameUnit (i, j) (i', j') →
    b (i, j) ≠ 0 → b (i, j) ≠ b (i', j')

/-- Predicate that `e` agrees with `b` on every filled (clue) cell of `b`. -/
def Extends (b e : VBoard) : Prop :=
  ∀ i < 9, ∀ j < 9, b (i, j) ≠ 0 → e (i, j) = b (i, j)

instance (b : VBoard) : Decidable (Complete b) := by unfold Complete; infer_instance

instance (b : VBoard) : Decidable (InRange b) := by unfold InRange; infer_instance

set_option synthInstance.maxSize 4000 in
instance (b : VBoard) : Decidable (Consistent b) := by unfold Consistent; infer_instance

instance (b e : VBoard) : Decidable (Extends b e) := by unfold Extends; infer_instance

/-! ### Basic lemmas -/

theorem mem_allPositions {p : Pos} : p ∈ allPositions ↔ p.1 < 9 ∧ p.2 < 9 := by
  obtain ⟨i, j⟩ := p
  simp [allPositions]

theorem allPositions_nodup : allPositions.Nodup := by decide

theorem allPositions_length : allPositions.length = 81 := by decide

theorem sameUnit_symm {p q : Pos} (h : sameUnit p q) : sameUnit q p := by
  rcases h with h | h | ⟨h₁, h₂⟩
  · exact Or.inl h.symm
  · exact Or.inr (Or.inl h.symm)
  · exact Or.inr (Or.inr ⟨h₁.symm, h₂.symm⟩)

theorem setCell_same (b : VBoard) (p : Pos) (n : Nat) : setCell b p n p = n := by
  unfold setCell; exact Function.update_same p n b

theorem setCell_other (b : VBoard) (p : Pos) (n : Nat) {q : Pos} (h : q ≠ p) :
    setCell b p n q = b q := by
  unfold setCell; exact Function.update_noteq h n b

/-- The three scan loops of `_is_valid` check exactly "no other cell of a
common unit holds `n`". -/
theorem isValid_iff {b : VBoard} {p : Pos} {n : Nat}
    (hp1 : p.1 < 9) (hp2 : p.2 < 9) :
    isValid b p n = true ↔
      ∀ q : Pos, q.1 < 9 → q.2 < 9 → q ≠ p → sameUnit p q → b q ≠ n := by
  obtain ⟨r, c⟩ := p
  simp only [isValid, Bool.and_eq_true, List.all_eq_true, List.mem_range,
    Bool.or_eq_true, beq_iff_eq, bne_iff_ne, ne_eq]
  constructor
  · rintro ⟨⟨hrow, hcol⟩, hbox⟩ ⟨q1, q2⟩ hq1 hq2 hne hunit
    replace hq1 : q1 < 9 := hq1
    replace hq2 : q2 < 9 := hq2
    rcases hunit with h | h | ⟨h1, h2⟩
    · -- same row
      replace h : r = q1 := h
      subst h
      rcases hrow q2 hq2 with h' | h'
      · exact absurd (by rw [h']) hne
      · exact h'
    · -- same column
      replace h : c = q2 := h
      subst h
      rcases hcol q1 hq1 with h' | h'
      · exact absurd (by rw [h']) hne
      · exact h'
    · -- same box
      replace h1 : r / 3 = q1 / 3 := h1
      replace h2 : c / 3 = q2 / 3 := h2
      have hd1 : q1 % 3 < 3 := Nat.mod_lt _ (by omega)
      have hd2 : q2 % 3 < 3 := Nat.mod_lt _ (by omega)
      have e1 : 3 * (r / 3) + q1 % 3 = q1 := by omega
      have e2 : 3 * (c / 3) + q2 % 3 = q2 := by omega
      rcases hbox (q1 % 3) hd1 (q2 % 3) hd2 with h' | h'
      · rw [e1, e2] at h'; exact absurd h' hne
      · rw [e1, e2] at h'; exact h'
  · intro h
    refine ⟨⟨fun j hj => ?_, fun i hi => ?_⟩, fun di hdi dj hdj => ?_⟩
    · by_cases hje : j = c
      · exact Or.inl hje
      · exact Or.inr (h (r, j) hp1 hj (by simp [hje]) (Or.inl rfl))
    · by_cases hie : i = r
      · exact Or.inl hie
      · exact Or.inr (h (i, c) hi hp2 (by simp [hie]) (Or.inr (Or.inl rfl)))
    · by_cases hqe : ((3 * (r / 3) + di, 3 * (c / 3) + dj) : Pos) = (r, c)
      · exact Or.inl hqe
      · refine Or.inr (h (3 * (r / 3) + di, 3 * (c / 3) + dj)
          (show 3 * (r / 3) + di < 9 by omega)
          (show 3 * (c / 3) + dj < 9 by omega) hqe (Or.inr (Or.inr ⟨?_, ?_⟩)))
        · show r / 3 = (3 * (r / 3) + di) / 3; omega
        · show c / 3 = (3 * (c / 3) + dj) / 3; omega

/-! ### `findEmpty` and `emptyCount` -/

theorem findEmpty_eq_none_iff {b : VBoard} :
    findEmpty b = none ↔ ∀ p ∈ allPositions, b p ≠ 0 := by
  unfold findEmpty
  rw [List.find?_eq_none]
  simp

theorem findEmpty_eq_some {b : VBoard} {p : Pos} (h : findEmpty b = some p) :
    b p = 0 ∧ p.1 < 9 ∧ p.2 < 9 := by
  have h1 := List.find?_some h
  have h2 := List.mem_of_find?_eq_some h
  exact ⟨by simpa using h1, mem_allPositions.mp h2⟩

theorem findEmpty_none_of_emptyCount {b : VBoard} (h : emptyCount b = 0) :
    findEmpty b = none := by
  unfold emptyCount at h
  rw [List.length_eq_zero] at h
  rw [findEmpty_eq_none_iff]
  intro p hp
  have := List.filter_eq_nil_iff.mp h p hp
  simpa using this

/-- One step of the generic filter/update counting argument: flipping the
predicate from true to false at a single member of a duplicate-free list
shrinks the filtered length by one. -/
theorem length_filter_update {l : List Pos} (hnd : l.Nodup) {p : Pos}
    (hp : p ∈ l) {f g : Pos → Bool} (hfp : f p = true) (hgp : g p = false)
    (hfg : ∀ q ∈ l, q ≠ p → f q = g q) :
    (l.filter g).length + 1 = (l.filter f).length := by
  induction l with
  | nil => cases hp
  | cons a l ih =>
    rcases List.mem_cons.mp hp with rfl | hpl
    · have hnotin : p ∉ l := (List.nodup_cons.mp hnd).1
      have hcongr : l.filter f = l.filter g := by
        apply List.filter_congr
        intro q hq
        exact hfg q (List.mem_cons_of_mem _ hq) (fun h => hnotin (h ▸ hq))
      simp [List.filter_cons, hfp, hgp, hcongr]
    · have hne : a ≠ p := fun h => (List.nodup_cons.mp hnd).1 (h ▸ hpl)
      have hfa := hfg a (List.mem_cons_self _ _) hne
      have ihl := ih (List.nodup_cons.mp hnd).2 hpl
        (fun q hq hqp => hfg q (List.mem_cons_of_mem _ hq) hqp)
      by_cases hfa' : f a = true
      · have hga : g a = true := hfa ▸ hfa'
        simp only [List.filter_cons, hfa', hga, if_true, List.length_cons]
        omega
      · have hfa0 : f a = false := by simpa using hfa'
        have hga : g a = false := hfa ▸ hfa0
        simp only [List.filter_cons, hfa0, hga, Bool.false_eq_true, if_false]
        exact ihl

theorem emptyCount_setCell {b : VBoard} {p : Pos} {n : Nat}
    (hp1 : p.1 < 9) (hp2 : p.2 < 9) (h0 : b p = 0) (hn : n ≠ 0) :
    emptyCount (setCell b p n) + 1 = emptyCount b := by
  unfold emptyCount
  exact length_filter_update allPositions_nodup
    (mem_allPositions.mpr ⟨hp1, hp2⟩)
    (by simpa using h0)
    (by simp [setCell_same, hn])
    (fun q _ hq => by simp [setCell_other b p n hq])

/-! ### Preservation of the board invariants by one placement -/

theorem inRange_setCell {b : VBoard} {p : Pos} {n : Nat}
    (h : InRange b) (hn : n ≤ 9) : InRange (setCell b p n) := by
  intro i hi j hj
  by_cases hq : ((i, j) : Pos) = p
  · rw [hq, setCell_same]; exact hn
  · rw [setCell_other b p n hq]; exact h i hi j hj

theorem consistent_setCell {b : VBoard} {p : Pos} {n : Nat}
    (hp1 : p.1 < 9) (hp2 : p.2 < 9) (hb : Consistent b) (_h0 : b p = 0)
    (_hn : n ≠ 0) (hv : isValid b p n = true) : Consistent (setCell b p n) := by
  have hchar := (isValid_iff hp1 hp2).mp hv
  intro i hi j hj i' hi' j' hj' hne hunit hnz
  by_cases hx : ((i, j) : Pos) = p
  · have hy : ((i', j') : Pos) ≠ p := fun h => hne (h ▸ hx)
    rw [hx, setCell_same, setCell_other b p n hy]
    have : sameUnit p (i', j') := hx ▸ hunit
    exact (hchar (i', j') hi' hj' hy this).symm
  · rw [setCell_other b p n hx] at hnz ⊢
    by_cases hy : ((i', j') : Pos) = p
    · rw [hy, setCell_same]
      have : sameUnit p (i, j) := sameUnit_symm (hy ▸ hunit)
      exact hchar (i, j) hi hj hx this
    · rw [setCell_other b p n hy]
      exact hb i hi j hj i' hi' j' hj' hne hunit hnz

theorem extends_setCell_right {b e : VBoard} {p : Pos} {n : Nat}
    (h : Extends b e) (hep : e p = n) : Extends (setCell b p n) e := by
  intro i hi j hj hnz
  by_cases hq : ((i, j) : Pos) = p
  · rw [hq, setCell_same]; exact hep
  · rw [setCell_other b p n hq] at hnz ⊢
    exact h i hi j hj hnz

theorem extends_of_extends_setCell {b e : VBoard} {p : Pos} {n : Nat}
    (h0 : b p = 0) (h : Extends (setCell b p n) e) : Extends b e := by
  intro i hi j hj hnz
  have hq : ((i, j) : Pos) ≠ p := fun heq => hnz (heq ▸ h0)
  have := h i hi j hj (by rw [setCell_other b p n hq]; exact hnz)
  rwa [setCell_other b p n hq] at this

/-! ### Soundness and completeness of the candidate loop -/

theorem tryNums_sound {f : VBoard → Nat → Option VBoard × Nat} {p : Pos}
    {b : VBoard} {Q : Nat → VBoard → Prop} :
    ∀ (l : List Nat),
      (∀ n ∈ l, ∀ k b₁ k₁, isValid b p n = true →
        f (setCell b p n) k = (some b₁, k₁) → Q n b₁) →
      ∀ (k : Nat) {b' : VBoard} {k' : Nat},
        tryNums f p l b k = (some b', k') →
        ∃ n ∈ l, isValid b p n = true ∧ Q n b' := by
  intro l
  induction l with
  | nil => intro _ k b' k' h; simp [tryNums] at h
  | cons n ns ih =>
    intro hf k b' k' h
    rw [tryNums] at h
    by_cases hv : isValid b p n = true
    · rw [if_pos hv] at h
      rcases hres : f (setCell b p n) k with ⟨ob, k₁⟩
      rw [hres] at h
      cases ob with
      | some b₁ =>
        simp at h
        obtain ⟨hb, _⟩ := h
        exact ⟨n, List.mem_cons_self _ _, hv,
          hb ▸ hf n (List.mem_cons_self _ _) k b₁ k₁ hv hres⟩
      | none =>
        obtain ⟨m, hm, hvm, hQ⟩ := ih
          (fun m hm => hf m (List.mem_cons_of_mem _ hm)) k₁ h
        exact ⟨m, List.mem_cons_of_mem _ hm, hvm, hQ⟩
    · rw [if_neg hv] at h
      obtain ⟨m, hm, hvm, hQ⟩ := ih
        (fun m hm => hf m (List.mem_cons_of_mem _ hm)) k h
      exact ⟨m, List.mem_cons_of_mem _ hm, hvm, hQ⟩

theorem tryNums_complete {f : VBoard → Nat → Option VBoard × Nat} {p : Pos}
    {b : VBoard} {n : Nat} (hv : isValid b p n = true)
    (hf : ∀ k, ((f (setCell b p n) k).1).isSome = true) :
    ∀ (l : List Nat) (k : Nat), n ∈ l → ((tryNums f p l b k).1).isSome = true := by
  intro l
  induction l with
  | nil => intro k h; cases h
  | cons m ms ih =>
    intro k hmem
    rw [tryNums]
    by_cases hvm : isValid b p m = true
    · rw [if_pos hvm]
      rcases hres : f (setCell b p m) k with ⟨ob, k₁⟩
      cases ob with
      | some b₁ => simp
      | none =>
        rcases List.mem_cons.mp hmem with rfl | hmem'
        · have := hf k
          rw [hres] at this
          simp at this
        · simpa using ih k₁ hmem'
    · rw [if_neg hvm]
      rcases List.mem_cons.mp hmem with rfl | hmem'
      · exact absurd hv hvm
      · exact ih k hmem'

/-! ### Soundness and completeness of the backtracking solver -/

theorem solveAux_sound {sh : Nat → List Nat} (hsh : ShPerm sh) :
    ∀ (fuel : Nat) (b : VBoard) (k : Nat) (b' : VBoard) (k' : Nat),
      InRange b → Consistent b → solveAux sh fuel b k = (some b', k') →
      Extends b b' ∧ Complete b' ∧ Consistent b' ∧ InRange b' := by
  intro fuel
  induction fuel with
  | zero =>
    intro b k b' k' hr hc h
    rw [solveAux] at h
    rcases hfe : findEmpty b with _ | p <;> rw [hfe] at h
    · simp at h
      obtain ⟨rfl, _⟩ := h
      refine ⟨fun i _ j _ _ => rfl, ?_, hc, hr⟩
      intro i hi j hj
      exact (findEmpty_eq_none_iff.mp hfe) (i, j) (mem_allPositions.mpr ⟨hi, hj⟩)
    · simp at h
  | succ fuel ih =>
    intro b k b' k' hr hc h
    rw [solveAux] at h
    rcases hfe : findEmpty b with _ | p <;> rw [hfe] at h
    · simp at h
      obtain ⟨rfl, _⟩ := h
      refine ⟨fun i _ j _ _ => rfl, ?_, hc, hr⟩
      intro i hi j hj
      exact (findEmpty_eq_none_iff.mp hfe) (i, j) (mem_allPositions.mpr ⟨hi, hj⟩)
    · obtain ⟨h0, hp1, hp2⟩ := findEmpty_eq_some hfe
      obtain ⟨n, hn, hv, hQ⟩ := tryNums_sound (Q := fun n b₁ =>
          Extends (setCell b p n) b₁ ∧ Complete b₁ ∧ Consistent b₁ ∧ InRange b₁)
        (sh k)
        (fun n hn k₀ b₁ k₁ hvn hrec => by
          have hn' : 1 ≤ n ∧ n < 1 + 9 :=
            List.mem_range'_1.mp ((hsh k).mem_iff.mp hn)
          exact ih (setCell b p n) k₀ b₁ k₁
            (inRange_setCell hr (by omega))
            (consistent_setCell hp1 hp2 hc h0 (by omega) hvn) hrec)
        (k + 1) h
      exact ⟨extends_of_extends_setCell h0 hQ.1, hQ.2⟩

theorem solveAux_complete {sh : Nat → List Nat} (hsh : ShPerm sh) :
    ∀ (fuel : Nat) (b : VBoard) (k : Nat) (e : VBoard),
      emptyCount b ≤ fuel → Extends b e → Complete e → Consistent e →
      InRange e → ((solveAux sh fuel b k).1).isSome = true := by
  intro fuel
  induction fuel with
  | zero =>
    intro b k e hfuel _ _ _ _
    rw [solveAux, findEmpty_none_of_emptyCount (Nat.le_zero.mp hfuel)]
    simp
  | succ fuel ih =>
    intro b k e hfuel hext hcomp hcons hrange
    rw [solveAux]
    rcases hfe : findEmpty b with _ | p
    · simp
    · obtain ⟨h0, hp1, hp2⟩ := findEmpty_eq_some hfe
      have hne : e p ≠ 0 := by
        have := hcomp p.1 hp1 p.2 hp2
        simpa using this
      have hle : e p ≤ 9 := by
        have := hrange p.1 hp1 p.2 hp2
        simpa using this
      have hmem : ∀ k', e p ∈ sh k' := fun k' =>
        (hsh k').mem_iff.mpr (List.mem_range'_1.mpr ⟨by omega, by omega⟩)
      have hv : isValid b p (e p) = true := by
        rw [isValid_iff hp1 hp2]
        intro q hq1 hq2 hqne hqunit hbq
        have hbq0 : b q ≠ 0 := by rw [hbq]; exact hne
        have heq : e q = b q := by
          have := hext q.1 hq1 q.2 hq2 (by simpa using hbq0)
          simpa using this
        have hpq : (⟨p.1, p.2⟩ : Pos) ≠ (⟨q.1, q.2⟩ : Pos) := by
          simpa using (Ne.symm hqne)
        have := hcons p.1 hp1 p.2 hp2 q.1 hq1 q.2 hq2 hpq
          (by simpa using hqunit) (by simpa using hne)
        simp only [Prod.mk.eta] at this
        exact this (by rw [heq, hbq])
      have hcount : emptyCount (setCell b p (e p)) ≤ fuel := by
        have := emptyCount_setCell hp1 hp2 h0 hne
        omega
      have hrec : ∀ k', ((solveAux sh fuel (setCell b p (e p)) k').1).isSome = true :=
        fun k' => ih (setCell b p (e p)) k' e hcount
          (extends_setCell_right hext rfl) hcomp hcons hrange
      exact tryNums_complete hv hrec (sh k) (k + 1) (hmem k)

/-! ### Rows, columns, boxes, and full validity

These notions come from the specification's phrase "every row, every column,
and every 3×3 box contains each of the values 1–9 exactly once"; they are the
spec-side yardstick against which the solver's output is measured. -/

/-- The positions of row `i`. -/
def rowCells (i : Nat) : List Pos := (List.range 9).map fun j => (i, j)

/-- The positions of column `j`. -/
def colCells (j : Nat) : List Pos := (List.range 9).map fun i => (i, j)

/-- Offsets within a 3×3 box. -/
def boxOffsets : List (Nat × Nat) :=
  [(0, 0), (0, 1), (0, 2), (1, 0), (1, 1), (1, 2), (2, 0), (2, 1), (2, 2)]

/-- The positions of the box with box-coordinates `(bi, bj)`, `bi, bj < 3`. -/
def boxCells (bi bj : Nat) : List Pos :=
  boxOffsets.map fun d => (3 * bi + d.1, 3 * bj + d.2)

/-- A fully consistent assignment: no empty cell, and every row, column, and
3×3 box contains each of the values 1–9 exactly once. -/
def FullyValid (b : VBoard) : Prop :=
  Complete b ∧
  (∀ i < 9, ∀ n < 10, 1 ≤ n → ((rowCells i).map b).count n = 1) ∧
  (∀ j < 9, ∀ n < 10, 1 ≤ n → ((colCells j).map b).count n = 1) ∧
  (∀ bi < 3, ∀ bj < 3, ∀ n < 10, 1 ≤ n → ((boxCells bi bj).map b).count n = 1)

set_option synthInstance.maxSize 4000 in
instance (b : VBoard) : Decidable (FullyValid b) := by
  unfold FullyValid; infer_instance

/-- A unit of the grid: nine distinct on-board cells, pairwise in a common
row, column, or box. -/
def IsUnit (L : List Pos) : Prop :=
  L.Nodup ∧ L.length = 9 ∧ (∀ p ∈ L, p.1 < 9 ∧ p.2 < 9) ∧
  (∀ p ∈ L, ∀ q ∈ L, p ≠ q → sameUnit p q)

theorem mem_boxOffsets (a b : Nat) (ha : a < 3) (hb : b < 3) :
    (a, b) ∈ boxOffsets := by
  interval_cases a <;> interval_cases b <;> decide

theorem boxOffsets_bounds : ∀ d ∈ boxOffsets, d.1 < 3 ∧ d.2 < 3 := by decide

theorem rowCells_isUnit {i : Nat} (hi : i < 9) : IsUnit (rowCells i) := by
  refine ⟨?_, rfl, ?_, ?_⟩
  · exact (List.nodup_range 9).map fun a b h => congrArg Prod.snd h
  · intro p hp
    obtain ⟨j, hj, rfl⟩ := List.mem_map.mp hp
    exact ⟨hi, List.mem_range.mp hj⟩
  · intro p hp q hq _
    obtain ⟨j, _, rfl⟩ := List.mem_map.mp hp
    obtain ⟨j', _, rfl⟩ := List.mem_map.mp hq
    exact Or.inl rfl

theorem colCells_isUnit {j : Nat} (hj : j < 9) : IsUnit (colCells j) := by
  refine ⟨?_, rfl, ?_, ?_⟩
  · exact (List.nodup_range 9).map fun a b h => congrArg Prod.fst h
  · intro p hp
    obtain ⟨i, hi, rfl⟩ := List.mem_map.mp hp
    exact ⟨List.mem_range.mp hi, hj⟩
  · intro p hp q hq _
    obtain ⟨i, _, rfl⟩ := List.mem_map.mp hp
    obtain ⟨i', _, rfl⟩ := List.mem_map.mp hq
    exact Or.inr (Or.inl rfl)

theorem boxCells_isUnit {bi bj : Nat} (hbi : bi < 3) (hbj : bj < 3) :
    IsUnit (boxCells bi bj) := by
  refine ⟨?_, rfl, ?_, ?_⟩
  · refine (List.Nodup.map ?_ (by decide))
    intro d e h
    obtain ⟨h1, h2⟩ := Prod.mk.injEq _ _ _ _ ▸ h
    exact Prod.ext (by omega) (by omega)
  · intro p hp
    obtain ⟨d, hd, rfl⟩ := List.mem_map.mp hp
    obtain ⟨hd1, hd2⟩ := boxOffsets_bounds d hd
    exact ⟨by omega, by omega⟩
  · intro p hp q hq _
    obtain ⟨d, hd, rfl⟩ := List.mem_map.mp hp
    obtain ⟨e, he, rfl⟩ := List.mem_map.mp hq
    obtain ⟨hd1, hd2⟩ := boxOffsets_bounds d hd
    obtain ⟨he1, he2⟩ := boxOffsets_bounds e he
    refine Or.inr (Or.inr ⟨?_, ?_⟩)
    · show (3 * bi + d.1) / 3 = (3 * bi + e.1) / 3; omega
    · show (3 * bj + d.2) / 3 = (3 * bj + e.2) / 3; omega

theorem mem_rowCells_of {i j : Nat} (hj : j < 9) : ((i, j) : Pos) ∈ rowCells i :=
  List.mem_map.mpr ⟨j, List.mem_range.mpr hj, rfl⟩

theorem mem_colCells_of {i j : Nat} (hi : i < 9) : ((i, j) : Pos) ∈ colCells j :=
  List.mem_map.mpr ⟨i, List.mem_range.mpr hi, rfl⟩

theorem mem_boxCells_of {i j : Nat} (_hi : i < 9) (_hj : j < 9) :
    ((i, j) : Pos) ∈ boxCells (i / 3) (j / 3) := by
  refine List.mem_map.mpr ⟨(i % 3, j % 3), mem_boxOffsets _ _ ?_ ?_, ?_⟩
  · omega
  · omega
  · show ((3 * (i / 3) + i % 3, 3 * (j / 3) + j % 3) : Pos) = (i, j)
    exact Prod.ext (by omega) (by omega)

/-- In a complete, consistent, in-range board, every unit holds each of the
values 1–9 exactly once (nine distinct values from a nine-element range must
exhaust it). -/
theorem unit_count_of_valid {b : VBoard} {L : List Pos} (hU : IsUnit L)
    (hcomp : Complete b) (hcons : Consistent b) (hrange : InRange b) :
    ∀ n < 10, 1 ≤ n → (L.map b).count n = 1 := by
  obtain ⟨hnd, hlen, hin, hunit⟩ := hU
  have hmapnd : (L.map b).Nodup := by
    refine List.Nodup.map_on ?_ hnd
    intro x hx y hy hbe
    by_contra hne
    have hu := hunit x hx y hy hne
    obtain ⟨hx1, hx2⟩ := hin x hx
    obtain ⟨hy1, hy2⟩ := hin y hy
    have h0 : b x ≠ 0 := by
      have := hcomp x.1 hx1 x.2 hx2; simpa using this
    have := hcons x.1 hx1 x.2 hx2 y.1 hy1 y.2 hy2
      (by simpa using hne) (by simpa using hu) (by simpa using h0)
    simp only [Prod.mk.eta] at this
    exact this hbe
  have hval : ∀ v ∈ L.map b, v ∈ Finset.Icc 1 9 := by
    intro v hv
    obtain ⟨x, hx, rfl⟩ := List.mem_map.mp hv
    obtain ⟨hx1, hx2⟩ := hin x hx
    have h0 : b x ≠ 0 := by have := hcomp x.1 hx1 x.2 hx2; simpa using this
    have h9 : b x ≤ 9 := by have := hrange x.1 hx1 x.2 hx2; simpa using this
    exact Finset.mem_Icc.mpr ⟨by omega, h9⟩
  have hsub : (L.map b).toFinset ⊆ Finset.Icc 1 9 :=
    fun v hv => hval v (List.mem_toFinset.mp hv)
  have hcard : (L.map b).toFinset.card = 9 := by
    rw [List.toFinset_card_of_nodup hmapnd, List.length_map, hlen]
  have heq : (L.map b).toFinset = Finset.Icc 1 9 :=
    Finset.eq_of_subset_of_card_le hsub (by rw [hcard]; decide)
  intro n hn10 hn1
  have hmem : n ∈ L.map b := by
    rw [← List.mem_toFinset, heq]
    exact Finset.mem_Icc.mpr ⟨hn1, by omega⟩
  have h1 : 0 < (L.map b).count n := List.count_pos_iff.mpr hmem
  have h2 : (L.map b).count n ≤ 1 := List.nodup_iff_count_le_one.mp hmapnd n
  omega

/-- Conversely, a unit holding each of 1–9 exactly once consists of nine
distinct in-range values. -/
theorem unit_values_of_count {b : VBoard} {L : List Pos} (hU : IsUnit L)
    (hcnt : ∀ n < 10, 1 ≤ n → (L.map b).count n = 1) :
    (∀ p ∈ L, 1 ≤ b p ∧ b p ≤ 9) ∧
    (∀ p ∈ L, ∀ q ∈ L, p ≠ q → b p ≠ b q) := by
  obtain ⟨hnd, hlen, _hin, _hunit⟩ := hU
  have hlenM : (L.map b).length = 9 := by rw [List.length_map, hlen]
  have hicc_sub : Finset.Icc 1 9 ⊆ (L.map b).toFinset := by
    intro n hn
    obtain ⟨hn1, hn9⟩ := Finset.mem_Icc.mp hn
    have := hcnt n (by omega) hn1
    exact List.mem_toFinset.mpr (List.count_pos_iff.mp (by omega))
  have hall : ∀ v ∈ L.map b, v ∈ Finset.Icc 1 9 := by
    by_contra hcon
    push_neg at hcon
    obtain ⟨x, hxM, hx⟩ := hcon
    have hxT : x ∈ (L.map b).toFinset := List.mem_toFinset.mpr hxM
    have hsub2 : insert x (Finset.Icc 1 9) ⊆ (L.map b).toFinset :=
      Finset.insert_subset_iff.mpr ⟨hxT, hicc_sub⟩
    have hsum_icc : ∑ a ∈ Finset.Icc 1 9, (L.map b).count a = 9 := by
      rw [Finset.sum_congr rfl (fun n hn => by
        obtain ⟨hn1, hn9⟩ := Finset.mem_Icc.mp hn
        exact hcnt n (by omega) hn1)]
      simp
    have hsum_ins : ∑ a ∈ insert x (Finset.Icc 1 9), (L.map b).count a =
        (L.map b).count x + 9 := by
      rw [Finset.sum_insert hx, hsum_icc]
    have hle : ∑ a ∈ insert x (Finset.Icc 1 9), (L.map b).count a ≤
        ∑ a ∈ (L.map b).toFinset, (L.map b).count a :=
      Finset.sum_le_sum_of_subset hsub2
    have hsum_all : ∑ a ∈ (L.map b).toFinset, (L.map b).count a = 9 := by
      have h : ∑ a ∈ (L.map b).toFinset, (L.map b).count a = (L.map b).length := by
        simp
      rw [h, hlenM]
    rw [hsum_ins, hsum_all] at hle
    have : 0 < (L.map b).count x := List.count_pos_iff.mpr hxM
    omega
  have hndM : (L.map b).Nodup := by
    rw [List.nodup_iff_count_le_one]
    intro a
    by_cases ha : a ∈ L.map b
    · have := hall a ha
      obtain ⟨h1, h9⟩ := Finset.mem_Icc.mp this
      rw [hcnt a (by omega) h1]
    · rw [List.count_eq_zero_of_not_mem ha]; omega
  constructor
  · intro p hp
    have := hall (b p) (List.mem_map_of_mem b hp)
    exact Finset.mem_Icc.mp this
  · intro p hp q hq hne hbe
    exact hne (List.inj_on_of_nodup_map hndM hp hq hbe)

/-- Equivalence: `FullyValid` is exactly completeness plus consistency plus in-range-ness:
the two directions of the counting argument above, applied to every unit. -/
theorem fullyValid_iff (b : VBoard) :
    FullyValid b ↔ Complete b ∧ Consistent b ∧ InRange b := by
  constructor
  · rintro ⟨hcomp, hrow, hcol, hbox⟩
    refine ⟨hcomp, ?_, ?_⟩
    · intro i hi j hj i' hi' j' hj' hne hunit _
      rcases hunit with h | h | ⟨h1, h2⟩
      · replace h : i = i' := h
        subst h
        exact (unit_values_of_count (rowCells_isUnit hi) (hrow i hi)).2
          (i, j) (mem_rowCells_of hj) (i, j') (mem_rowCells_of hj') hne
      · replace h : j = j' := h
        subst h
        exact (unit_values_of_count (colCells_isUnit hj) (hcol j hj)).2
          (i, j) (mem_colCells_of hi) (i', j) (mem_colCells_of hi') hne
      · replace h1 : i / 3 = i' / 3 := h1
        replace h2 : j / 3 = j' / 3 := h2
        have hm' : ((i', j') : Pos) ∈ boxCells (i / 3) (j / 3) := by
          rw [h1, h2]; exact mem_boxCells_of hi' hj'
        exact (unit_values_of_count (boxCells_isUnit (by omega) (by omega))
            (hbox (i / 3) (by omega) (j / 3) (by omega))).2
          (i, j) (mem_boxCells_of hi hj) (i', j') hm' hne
    · intro i hi j hj
      exact ((unit_values_of_count (rowCells_isUnit hi) (hrow i hi)).1
        (i, j) (mem_rowCells_of hj)).2
  · rintro ⟨hcomp, hcons, hrange⟩
    refine ⟨hcomp, ?_, ?_, ?_⟩
    · intro i hi
      exact unit_count_of_valid (rowCells_isUnit hi) hcomp hcons hrange
    · intro j hj
      exact unit_count_of_valid (colCells_isUnit hj) hcomp hcons hrange
    · intro bi hbi bj hbj
      exact unit_count_of_valid (boxCells_isUnit hbi hbj) hcomp hcons hrange

theorem pySolve_sound {sh : Nat → List Nat} {b b' : VBoard} (hsh : ShPerm sh)
    (hr : InRange b) (hc : Consistent b) (h : pySolve sh b = some b') :
    Extends b b' ∧ Complete b' ∧ Consistent b' ∧ InRange b' := by
  unfold pySolve at h
  rcases heq : solveAux sh (emptyCount b) b 0 with ⟨ob, k'⟩
  rw [heq] at h
  simp at h
  exact solveAux_sound hsh (emptyCount b) b 0 b' k' hr hc (h ▸ heq)

theorem pySolve_complete {sh : Nat → List Nat} {b e : VBoard} (hsh : ShPerm sh)
    (hext : Extends b e) (hcomp : Complete e) (hcons : Consistent e)
    (hrange : InRange e) : (pySolve sh b).isSome = true :=
  solveAux_complete hsh (emptyCount b) b 0 e le_rfl hext hcomp hcons hrange

/-! ### A concrete fully valid grid through any single seed clue -/

/-- The board `_generate_solved` seeds: value `v` at `(0, 0)`, all other
cells empty. -/
def seedVB (v : Nat) : VBoard :=
  fun p => if p = ((0, 0) : Pos) then v else 0

theorem seedVB_eq_zero {v : Nat} {p : Pos} (h : p ≠ ((0, 0) : Pos)) :
    seedVB v p = 0 :=
  if_neg h

/-- The classic shifted Sudoku pattern: a fully valid grid whose `(0, 0)`
entry is `v` whenever `1 ≤ v ≤ 9`. -/
def patternGrid (v : Nat) : VBoard :=
  fun p => (3 * p.1 + p.1 / 3 + p.2 + (v - 1)) % 9 + 1

theorem patternGrid_complete (v : Nat) : Complete (patternGrid v) := by
  intro i _ j _
  show (3 * i + i / 3 + j + (v - 1)) % 9 + 1 ≠ 0
  omega

theorem patternGrid_inRange (v : Nat) : InRange (patternGrid v) := by
  intro i _ j _
  show (3 * i + i / 3 + j + (v - 1)) % 9 + 1 ≤ 9
  omega

theorem shift_mod_ne {a b t : Nat} (h : a % 9 ≠ b % 9) :
    (a + t) % 9 + 1 ≠ (b + t) % 9 + 1 := by omega

theorem rowBase_distinct : ∀ i < 9, ∀ i' < 9, i ≠ i' →
    (3 * i + i / 3) % 9 ≠ (3 * i' + i' / 3) % 9 := by decide

theorem patternGrid_consistent (v : Nat) : Consistent (patternGrid v) := by
  intro i hi j hj i' hi' j' hj' hne hunit _
  have hne' : ¬(i = i' ∧ j = j') := by
    intro ⟨h1, h2⟩
    exact hne (by rw [h1, h2])
  show (3 * i + i / 3 + j + (v - 1)) % 9 + 1 ≠
    (3 * i' + i' / 3 + j' + (v - 1)) % 9 + 1
  rcases hunit with h | h | ⟨h1, h2⟩
  · replace h : i = i' := h
    subst h
    have hjj : j ≠ j' := fun he => hne' ⟨rfl, he⟩
    omega
  · replace h : j = j' := h
    subst h
    have hii : i ≠ i' := fun he => hne' ⟨he, rfl⟩
    have hb := rowBase_distinct i hi i' hi' hii
    have := shift_mod_ne (t := j + (v - 1)) hb
    omega
  · replace h1 : i / 3 = i' / 3 := h1
    replace h2 : j / 3 = j' / 3 := h2
    omega

theorem seedVB_extends_patternGrid {v : Nat} (h1 : 1 ≤ v) (h9 : v ≤ 9) :
    Extends (seedVB v) (patternGrid v) := by
  intro i _ j _ hnz
  by_cases hq : ((i, j) : Pos) = (0, 0)
  · have hi0 : i = 0 := congrArg Prod.fst hq
    have hj0 : j = 0 := congrArg Prod.snd hq
    subst hi0; subst hj0
    have hs : seedVB v (0, 0) = v := by simp [seedVB]
    rw [hs]
    show (3 * 0 + 0 / 3 + 0 + (v - 1)) % 9 + 1 = v
    omega
  · exact absurd (seedVB_eq_zero hq) hnz

theorem seedVB_inRange {v : Nat} (h9 : v ≤ 9) : InRange (seedVB v) := by
  intro i _ j _
  unfold seedVB
  split <;> omega

theorem seedVB_consistent (v : Nat) : Consistent (seedVB v) := by
  intro i _ j _ i' _ j' _ hne _ hnz
  by_cases hq : ((i, j) : Pos) = (0, 0)
  · have hq' : ((i', j') : Pos) ≠ (0, 0) := fun h => hne (by rw [hq, h])
    have h2 : seedVB v (i', j') = 0 := seedVB_eq_zero hq'
    rw [h2]
    exact hnz
  · exact absurd (seedVB_eq_zero hq) hnz

/-! ### The game-state layer -/

/-- The `Move` record class (row, col, old/new value, old/new note sets). -/
structure MoveRec where
  row : Nat
  col : Nat
  old_value : Nat
  new_value : Nat
  old_notes : Finset Nat
  new_notes : Finset Nat
deriving DecidableEq

/-- The `Cell` class. -/
structure Cell where
  value : Nat
  notes : Finset Nat
  original : Bool
  has_conflict : Bool
  highlighted : Bool
deriving DecidableEq

/-- Model of `Cell.__init__`. -/
def Cell.new : Cell :=
  { value := 0, notes := ∅, original := false,
    has_conflict := false, highlighted := false }

/-- The 9×9 grid of cells (again a total function; the game touches only
`allPositions`). -/
abbrev CBoard := Pos → Cell

/-- The value view of a cell board (`self.board[i][j].value`). -/
def cellValues (b : CBoard) : VBoard := fun p => (b p).value

/-- The mutable state of `SudokuGame` (achievements, a pure UI/persistence
record, is omitted). -/
structure GameState where
  board : CBoard
  selected_cell : Pos
  mistakes : Nat
  hint_count : Int
  start_time : Option Int
  pause_time : Int
  is_paused : Bool
  moves_history : List MoveRec
  redo_stack : List MoveRec
  score : Int
  difficulty : Int
  auto_check : Bool

/-- Model of `SudokuGame.__init__`. -/
def initGame : GameState where
  board := fun _ => Cell.new
  selected_cell := (0, 0)
  mistakes := 0
  hint_count := 3
  start_time := none
  pause_time := 0
  is_paused := false
  moves_history := []
  redo_stack := []
  score := 0
  difficulty := 1
  auto_check := true

/-- Model of `SudokuGame.make_move(row, col, num, note_mode)`: reject edits of clue
cells; in note mode toggle the note; otherwise validate against the current
board, either charging a mistake or writing the value and clearing the
notes. -/
def makeMove (g : GameState) (row col num : Nat) (note_mode : Bool) :
    GameState × Bool :=
  if (g.board (row, col)).original then
    (g, false)
  else if note_mode then
    let c := g.board (row, col)
    let c' := if num ∈ c.notes then { c with notes := c.notes.erase num }
              else { c with notes := insert num c.notes }
    ({ g with board := Function.update g.board (row, col) c' }, true)
  else if !(isValid (cellValues g.board) (row, col) num) then
    ({ g with mistakes := g.mistakes + 1 }, false)
  else
    let c' := { g.board (row, col) with value := num, notes := ∅ }
    ({ g with board := Function.update g.board (row, col) c' }, true)

/-- Model of `SudokuGame.use_hint()`: guard on the hint budget and the selected cell,
solve a scratch board holding only the values, and on success copy the
solved value back, promote the cell to a clue, and spend a hint. -/
def useHint (sh : Nat → List Nat) (g : GameState) : GameState × Bool :=
  if g.hint_count ≤ 0 then (g, false)
  else
    let p := g.selected_cell
    if (g.board p).original || (g.board p).value != 0 then (g, false)
    else
      match pySolve sh (cellValues g.board) with
      | some sol =>
        ({ g with
            board := Function.update g.board p
              { g.board p with value := sol p, original := true },
            hint_count := g.hint_count - 1 }, true)
      | none => (g, false)

/-- The seeded cell board built at the top of `_generate_solved`: fresh
cells, one random clue at `(0, 0)`. -/
def seedCBoard (v : Nat) : CBoard :=
  Function.update (fun _ => Cell.new) ((0, 0) : Pos)
    { Cell.new with value := v, original := true }

/-- Model of `SudokuGame._generate_solved()`, with `v` standing for
`random.randint(1, 9)`: solve the seeded board; on success mark every cell
as a clue. -/
def generateSolved (sh : Nat → List Nat) (v : Nat) (g : GameState) :
    GameState × Bool :=
  match pySolve sh (cellValues (seedCBoard v)) with
  | some sol =>
    ({ g with board := fun p =>
        { value := sol p, notes := ∅, original := true,
          has_conflict := false, highlighted := false } }, true)
  | none => ({ g with board := seedCBoard v }, false)

/-- The difficulty table of `generate_puzzle`
(`{1: 41, 2: 51, 3: 56}.get(difficulty, 41)`). -/
def cellsToRemove (difficulty : Int) : Nat :=
  if difficulty = 1 then 41
  else if difficulty = 2 then 51
  else if difficulty = 3 then 56
  else 41

/-- The removal loop of `generate_puzzle`: zero the value and clear the clue
flag of each listed position in turn. -/
def removeCells (L : List Pos) (b : CBoard) : CBoard :=
  L.foldl (fun b' p => Function.update b' p
    { b' p with value := 0, original := false }) b

/-- Model of `SudokuGame.generate_puzzle(difficulty)`: build a solved board (ignoring
`_generate_solved`'s boolean, as the source does), remove the first
`cells_to_remove` entries of the shuffled position list `ps`
(`random.shuffle(positions)`), and stamp the start time. -/
def generatePuzzle (sh : Nat → List Nat) (v : Nat) (ps : List Pos)
    (now : Int) (g : GameState) (difficulty : Int) : GameState :=
  let g1 := (generateSolved sh v g).1
  let b2 := removeCells (ps.take (cellsToRemove difficulty)) g1.board
  { g1 with board := b2, start_time := some now }

/-- Number of nonzero (clue) cells of a game board. -/
def clueCount (b : CBoard) : Nat :=
  (allPositions.filter fun p => (b p).value != 0).length

/-- Test that `p` lies on the board, as a Bool (the loop bounds `range(9)`). -/
def onBoardB (p : Pos) : Bool := decide (p.1 < 9 ∧ p.2 < 9)

/-- Does any other on-board cell of a common unit hold the same value as
`p`?  (The union of the row, column, and box scans of `update_conflicts`.) -/
def hasDupB (v : VBoard) (p : Pos) : Bool :=
  allPositions.any fun q =>
    decide (q ≠ p) && decide (sameUnit p q) && (v q == v p)

/-- The body of the outer double loop of `update_conflicts` for scanning
cell `s`: a nonzero scanning cell flags itself when some peer duplicates its
value, and flags every duplicating peer.  The source's three inner scan
loops read only cell values and write only `has_conflict` flags, so their
combined effect is exactly this functional update. -/
def flagStep (b : CBoard) (s : Pos) : CBoard :=
  if (b s).value == 0 then b
  else fun q =>
    if q = s then
      { b s with has_conflict := (b s).has_conflict || hasDupB (cellValues b) s }
    else if onBoardB q && decide (sameUnit s q) && ((b q).value == (b s).value) then
      { b q with has_conflict := true }
    else b q

/-- Model of `SudokuGame.update_conflicts()`: no-op when `auto_check` is off;
otherwise reset every `has_conflict` flag and scan all cells. -/
def updateConflicts (g : GameState) : GameState :=
  if !g.auto_check then g
  else { g with board :=
    allPositions.foldl flagStep fun p => { g.board p with has_conflict := false } }

/-- Model of `SudokuGame.pause_game()` at wall-clock instant `now`. -/
def pauseGame (g : GameState) (now : Int) : GameState :=
  if !g.is_paused then { g with pause_time := now, is_paused := true }
  else { g with pause_time := now - g.pause_time, is_paused := false }

/-- Model of `SudokuGame.get_elapsed_time()` at wall-clock instant `now`.  Python's
`if not self.start_time` is true both for `None` and for a zero
timestamp. -/
def getElapsedTime (g : GameState) (now : Int) : Int :=
  match g.start_time with
  | none => 0
  | some st =>
    if st = 0 then 0
    else if g.is_paused then g.pause_time - st - g.pause_time
    else now - st - g.pause_time

/-- Model of `SudokuGame.calculate_score()`; Python's floor division `//` is
`Int.fdiv`. -/
def calculateScore (g : GameState) (now : Int) : Int :=
  let base_score : Int := 1000
  let time_penalty := Int.fdiv (getElapsedTime g now) 30
  let mistake_penalty := (g.mistakes : Int) * 50
  let difficulty_bonus := (g.difficulty - 1) * 500
  let hint_penalty := (3 - g.hint_count) * 100
  max 0 (base_score + difficulty_bonus - time_penalty - mistake_penalty - hint_penalty)

/-! ### Analysis of puzzle generation -/

theorem cellValues_seedCBoard (v : Nat) : cellValues (seedCBoard v) = seedVB v := by
  funext p
  unfold cellValues seedCBoard seedVB
  by_cases hp : p = ((0, 0) : Pos)
  · subst hp
    rw [Function.update_same, if_pos rfl]
  · rw [Function.update_noteq hp, if_neg hp]
    rfl

/-- With a seed value in 1–9 and a permutation shuffle stream, the solve
inside `_generate_solved` always succeeds, and the success branch is taken. -/
theorem generateSolved_success {sh : Nat → List Nat} (hsh : ShPerm sh)
    {v : Nat} (h1 : 1 ≤ v) (h9 : v ≤ 9) (g : GameState) :
    ∃ sol, pySolve sh (cellValues (seedCBoard v)) = some sol ∧
      Complete sol ∧ Consistent sol ∧ InRange sol ∧
      generateSolved sh v g =
        ({ g with board := fun p =>
            { value := sol p, notes := ∅, original := true,
              has_conflict := false, highlighted := false } }, true) := by
  have hVB : cellValues (seedCBoard v) = seedVB v := cellValues_seedCBoard v
  have hsome : (pySolve sh (cellValues (seedCBoard v))).isSome = true := by
    rw [hVB]
    exact pySolve_complete hsh (seedVB_extends_patternGrid h1 h9)
      (patternGrid_complete v) (patternGrid_consistent v) (patternGrid_inRange v)
  rcases hres : pySolve sh (cellValues (seedCBoard v)) with _ | sol
  · rw [hres] at hsome; simp at hsome
  · have hsound := pySolve_sound hsh (by rw [hVB]; exact seedVB_inRange h9)
      (by rw [hVB]; exact seedVB_consistent v) hres
    refine ⟨sol, rfl, hsound.2.1, hsound.2.2.1, hsound.2.2.2, ?_⟩
    unfold generateSolved
    rw [hres]

/-- Pointwise description of the removal loop: removed cells end with value
0 and no clue flag; untouched cells keep their cell unchanged. -/
theorem removeCells_spec (L : List Pos) :
    ∀ (b : CBoard) (q : Pos),
      (q ∈ L → ((removeCells L b) q).value = 0 ∧
        ((removeCells L b) q).original = false) ∧
      (q ∉ L → removeCells L b q = b q) := by
  induction L with
  | nil => exact fun b q => ⟨fun h => absurd h (List.not_mem_nil q), fun _ => rfl⟩
  | cons p L ih =>
    intro b q
    have hstep : removeCells (p :: L) b =
        removeCells L (Function.update b p
          { b p with value := 0, original := false }) := rfl
    constructor
    · intro hq
      rcases List.mem_cons.mp hq with rfl | hqL
      · by_cases hqL' : q ∈ L
        · exact hstep ▸ (ih _ q).1 hqL'
        · rw [hstep, (ih _ q).2 hqL', Function.update_same]
          exact ⟨rfl, rfl⟩
      · exact hstep ▸ (ih _ q).1 hqL
    · intro hq
      have hqp : q ≠ p := fun h => hq (h ▸ List.mem_cons_self p L)
      have hqL : q ∉ L := fun h => hq (List.mem_cons_of_mem p h)
      rw [hstep, (ih _ q).2 hqL, Function.update_noteq hqp]

/-- Filtering a duplicate-free list by membership in a duplicate-free
sublist counts exactly that sublist. -/
theorem filter_mem_length {l1 l2 : List Pos} (h1 : l1.Nodup) (h2 : l2.Nodup)
    (hsub : ∀ p ∈ l2, p ∈ l1) :
    (l1.filter fun p => decide (p ∈ l2)).length = l2.length := by
  have hnd : (l1.filter fun p => decide (p ∈ l2)).Nodup := h1.filter _
  rw [← List.toFinset_card_of_nodup hnd, ← List.toFinset_card_of_nodup h2]
  congr 1
  ext x
  simp only [List.mem_toFinset, List.mem_filter, decide_eq_true_eq]
  exact ⟨fun h => h.2, fun hx => ⟨hsub x hx, hx⟩⟩

/-- Master lemma for `generate_puzzle`: clue count, clue flags on remaining
cells, and zeroed state of removed cells. -/
theorem generatePuzzle_spec {sh : Nat → List Nat} (hsh : ShPerm sh)
    {v : Nat} (h1 : 1 ≤ v) (h9 : v ≤ 9) {ps : List Pos}
    (hps : ps.Perm allPositions) (now : Int) (g : GameState) (d : Int)
    (hk : cellsToRemove d ≤ 81) :
    clueCount (generatePuzzle sh v ps now g d).board = 81 - cellsToRemove d ∧
    (∀ p ∈ allPositions,
      ((generatePuzzle sh v ps now g d).board p).value ≠ 0 →
      ((generatePuzzle sh v ps now g d).board p).original = true) ∧
    (∀ p ∈ ps.take (cellsToRemove d),
      ((generatePuzzle sh v ps now g d).board p).value = 0 ∧
      ((generatePuzzle sh v ps now g d).board p).original = false) := by
  obtain ⟨sol, _hres, hcomp, _hcons, _hrange, hgen⟩ :=
    generateSolved_success hsh h1 h9 g
  set tk := ps.take (cellsToRemove d) with htk
  have htknd : tk.Nodup :=
    ((ps.take_sublist (cellsToRemove d)).nodup
      (hps.nodup_iff.mpr allPositions_nodup))
  have htksub : ∀ p ∈ tk, p ∈ allPositions := fun p hp =>
    hps.mem_iff.mp (List.mem_of_mem_take hp)
  have htklen : tk.length = cellsToRemove d := by
    rw [htk, List.length_take, hps.length_eq, allPositions_length]
    omega
  have hboard : (generatePuzzle sh v ps now g d).board =
      removeCells tk ((generateSolved sh v g).1).board := rfl
  have hsolved : ((generateSolved sh v g).1).board = fun p =>
      { value := sol p, notes := ∅, original := true,
        has_conflict := false, highlighted := false } := by
    rw [hgen]
  have hcell : ∀ q : Pos, q ∈ allPositions →
      (q ∈ tk → ((generatePuzzle sh v ps now g d).board q).value = 0 ∧
        ((generatePuzzle sh v ps now g d).board q).original = false) ∧
      (q ∉ tk → ((generatePuzzle sh v ps now g d).board q).value = sol q ∧
        ((generatePuzzle sh v ps now g d).board q).original = true) := by
    intro q _
    rw [hboard, hsolved]
    refine ⟨(removeCells_spec tk _ q).1, fun hq => ?_⟩
    rw [(removeCells_spec tk _ q).2 hq]
    exact ⟨rfl, rfl⟩
  refine ⟨?_, ?_, ?_⟩
  · -- clue count
    unfold clueCount
    have hcongr : (allPositions.filter fun p =>
        ((generatePuzzle sh v ps now g d).board p).value != 0) =
        allPositions.filter fun p => !(decide (p ∈ tk)) := by
      apply List.filter_congr
      intro q hq
      obtain ⟨hq1, hq2⟩ := mem_allPositions.mp hq
      by_cases hqtk : q ∈ tk
      · have := ((hcell q hq).1 hqtk).1
        simp [this, hqtk]
      · have := ((hcell q hq).2 hqtk).1
        have hnz : sol q ≠ 0 := by
          have := hcomp q.1 hq1 q.2 hq2
          simpa using this
        simp_all
    rw [hcongr]
    have hsplit := List.length_eq_length_filter_add
      (l := allPositions) (fun p => decide (p ∈ tk))
    have hmem := filter_mem_length allPositions_nodup htknd htksub
    rw [allPositions_length] at hsplit
    have : (allPositions.filter fun p => !(decide (p ∈ tk))).length =
        81 - tk.length := by omega
    rw [this, htklen]
  · -- clue flags
    intro p hp hv
    by_cases hptk : p ∈ tk
    · exact absurd ((hcell p hp).1 hptk).1 hv
    · exact ((hcell p hp).2 hptk).2
  · -- removed cells
    intro p hp
    exact (hcell p (htksub p hp)).1 hp

/-! ### Analysis of conflict recomputation -/

/-- The flag contribution of scanning cell `s` to cell `q` in one body of
the `update_conflicts` loop. -/
def flagCond (b : CBoard) (s q : Pos) : Bool :=
  if (b s).value == 0 then false
  else if q = s then hasDupB (cellValues b) s
  else onBoardB q && decide (sameUnit s q) && ((b q).value == (b s).value)

theorem flagStep_value (b : CBoard) (s q : Pos) :
    ((flagStep b s) q).value = (b q).value := by
  unfold flagStep
  by_cases h0 : ((b s).value == 0) = true
  · rw [if_pos h0]
  · rw [if_neg h0]
    simp only []
    by_cases hq : q = s
    · subst hq
      rw [if_pos rfl]
    · rw [if_neg hq]
      by_cases hpeer : (onBoardB q && decide (sameUnit s q) &&
          ((b q).value == (b s).value)) = true
      · rw [if_pos hpeer]
      · rw [if_neg hpeer]

theorem flagStep_conflict (b : CBoard) (s q : Pos) :
    ((flagStep b s) q).has_conflict =
      ((b q).has_conflict || flagCond b s q) := by
  unfold flagStep flagCond
  by_cases h0 : ((b s).value == 0) = true
  · rw [if_pos h0, if_pos h0, Bool.or_false]
  · rw [if_neg h0, if_neg h0]
    simp only []
    by_cases hq : q = s
    · subst hq
      rw [if_pos rfl, if_pos rfl]
    · rw [if_neg hq, if_neg hq]
      by_cases hpeer : (onBoardB q && decide (sameUnit s q) &&
          ((b q).value == (b s).value)) = true
      · rw [if_pos hpeer, hpeer, Bool.or_true]
      · rw [if_neg hpeer]
        have hfalse : (onBoardB q && decide (sameUnit s q) &&
            ((b q).value == (b s).value)) = false := by simpa using hpeer
        rw [hfalse, Bool.or_false]

theorem flagCond_congr {b b' : CBoard} (h : cellValues b' = cellValues b)
    (s q : Pos) : flagCond b' s q = flagCond b s q := by
  unfold flagCond
  have hs : (b' s).value = (b s).value := congrFun h s
  have hq : (b' q).value = (b q).value := congrFun h q
  rw [hs, hq, h]

theorem foldl_flagStep_value (L : List Pos) :
    ∀ (b : CBoard) (q : Pos), ((L.foldl flagStep b) q).value = (b q).value := by
  induction L with
  | nil => exact fun b q => rfl
  | cons s L ih =>
    intro b q
    show ((L.foldl flagStep (flagStep b s)) q).value = (b q).value
    rw [ih (flagStep b s) q, flagStep_value]

theorem list_any_congr {α : Type} {l : List α} {f g : α → Bool}
    (h : ∀ a ∈ l, f a = g a) : l.any f = l.any g := by
  induction l with
  | nil => rfl
  | cons a l ih =>
    simp only [List.any_cons]
    rw [h a (List.mem_cons_self a l),
      ih fun x hx => h x (List.mem_cons_of_mem a hx)]

theorem foldl_flagStep_conflict (L : List Pos) :
    ∀ (b : CBoard) (q : Pos), ((L.foldl flagStep b) q).has_conflict =
      ((b q).has_conflict || L.any fun s => flagCond b s q) := by
  induction L with
  | nil => intro b q; simp
  | cons s L ih =>
    intro b q
    show ((L.foldl flagStep (flagStep b s)) q).has_conflict = _
    rw [ih (flagStep b s) q, flagStep_conflict]
    have hcv : cellValues (flagStep b s) = cellValues b := by
      funext r; exact flagStep_value b s r
    rw [list_any_congr fun r _ => flagCond_congr hcv r q]
    simp [List.any_cons, Bool.or_assoc]

/-- The scan flags `q` (on the cleared board) iff some other cell of a
common unit holds `q`'s nonzero value. -/
theorem any_flagCond_iff {b : CBoard} {q : Pos} (hq1 : q.1 < 9) (hq2 : q.2 < 9) :
    ((allPositions.any fun s => flagCond b s q) = true) ↔
      ∃ s : Pos, s.1 < 9 ∧ s.2 < 9 ∧ s ≠ q ∧ sameUnit q s ∧
        (b s).value = (b q).value ∧ (b q).value ≠ 0 := by
  constructor
  · intro h
    obtain ⟨s, hs, hcond⟩ := List.any_eq_true.mp h
    unfold flagCond at hcond
    by_cases h0 : ((b s).value == 0) = true
    · rw [if_pos h0] at hcond; cases hcond
    · rw [if_neg h0] at hcond
      have h0' : (b s).value ≠ 0 := by simpa using h0
      by_cases hqs : q = s
      · subst hqs
        rw [if_pos rfl] at hcond
        obtain ⟨r, hr, hrcond⟩ := List.any_eq_true.mp hcond
        simp only [Bool.and_eq_true, decide_eq_true_eq, beq_iff_eq] at hrcond
        obtain ⟨⟨hrq, hru⟩, hrv⟩ := hrcond
        obtain ⟨hr1, hr2⟩ := mem_allPositions.mp hr
        exact ⟨r, hr1, hr2, hrq, hru, hrv, h0'⟩
      · rw [if_neg hqs] at hcond
        simp only [Bool.and_eq_true, decide_eq_true_eq, beq_iff_eq, onBoardB]
          at hcond
        obtain ⟨⟨_, hsu⟩, hsv⟩ := hcond
        obtain ⟨hs1, hs2⟩ := mem_allPositions.mp hs
        refine ⟨s, hs1, hs2, fun h => hqs h.symm, sameUnit_symm hsu, hsv.symm, ?_⟩
        rw [hsv]; exact h0'
  · rintro ⟨s, hs1, hs2, hsq, hsu, hsv, hq0⟩
    apply List.any_eq_true.mpr
    refine ⟨q, mem_allPositions.mpr ⟨hq1, hq2⟩, ?_⟩
    unfold flagCond
    rw [if_neg (by simpa using hq0), if_pos rfl]
    apply List.any_eq_true.mpr
    refine ⟨s, mem_allPositions.mpr ⟨hs1, hs2⟩, ?_⟩
    simp only [Bool.and_eq_true, decide_eq_true_eq, beq_iff_eq]
    exact ⟨⟨hsq, hsu⟩, hsv⟩

/-! ### Concrete instances used by witnesses and counterexamples -/

/-- A concrete shuffle stream: every invocation draws `[1, …, 9]`
unshuffled. -/
def shW : Nat → List Nat := fun _ => List.range' 1 9

theorem shW_perm : ShPerm shW := fun _ => List.Perm.refl _

/-- The empty board. -/
def emptyVB : VBoard := fun _ => 0

/-- A fully filled but inconsistent board: every cell holds 5. -/
def allFives : VBoard := fun _ => 5

/-- A free (non-clue) cell holding 5. -/
def cell5 : Cell := { Cell.new with value := 5 }

/-- A clue cell holding 5. -/
def clueCell5 : Cell := { Cell.new with value := 5, original := true }

/-- A game whose only filled cell is a non-clue 5 at `(0, 0)`. -/
def gBoard5 : GameState :=
  { initGame with board := Function.update initGame.board ((0, 0) : Pos) cell5 }

/-- A game whose cell `(0, 0)` is a clue 5. -/
def gClue5 : GameState :=
  { initGame with
      board := Function.update initGame.board ((0, 0) : Pos) clueCell5 }

/-- A game with an exhausted hint budget. -/
def gHint0 : GameState := { initGame with hint_count := 0 }

/-- The scoring scenario of the specification: difficulty 1, 90 elapsed
seconds (session started at 10, evaluated at 100), 2 mistakes, 2 hints
left. -/
def gScore : GameState :=
  { initGame with
      difficulty := 1
      mistakes := 2
      hint_count := 2
      start_time := some 10 }

/-- A running session started at wall-clock 100. -/
def gRun : GameState := { initGame with start_time := some 100 }

/-! ### The claims -/

set_option maxRecDepth 4000 in
/-- C1, counterexample: on the fully filled all-fives board, `_solve` finds
no empty cell and returns `True` at once, yet the resulting board is not a
fully consistent assignment (no row contains each of 1–9 exactly once), and
no fully consistent assignment extends this board.  The claim as stated
("for every board") is therefore false. -/
theorem solve_claim_counterexample :
    pySolve shW allFives = some allFives ∧ ¬ FullyValid allFives := by
  constructor
  · rfl
  · decide

/-- C1, amended: for every board whose clues are in range and mutually
non-conflicting (true of every board the program hands to `_solve`), and
every permutation shuffle stream, `_solve` returns `True` iff a fully
consistent assignment extending the clues exists; and whenever it returns
`True`, the final board has no empty cell and every row, column, and 3×3 box
contains each of 1–9 exactly once (`FullyValid`). -/
theorem solve_correct (sh : Nat → List Nat) (b : VBoard) (hsh : ShPerm sh)
    (hrange : InRange b) (hcons : Consistent b) :
    ((pySolve sh b).isSome = true ↔ ∃ e, Extends b e ∧ FullyValid e) ∧
    (∀ b', pySolve sh b = some b' → Extends b b' ∧ FullyValid b') := by
  constructor
  · constructor
    · intro h
      rcases hres : pySolve sh b with _ | b'
      · rw [hres] at h; simp at h
      · obtain ⟨hext, hcomp, hcons', hrange'⟩ := pySolve_sound hsh hrange hcons hres
        exact ⟨b', hext, (fullyValid_iff b').mpr ⟨hcomp, hcons', hrange'⟩⟩
    · rintro ⟨e, hext, hfv⟩
      obtain ⟨hcomp, hcons', hrange'⟩ := (fullyValid_iff e).mp hfv
      exact pySolve_complete hsh hext hcomp hcons' hrange'
  · intro b' hres
    obtain ⟨hext, hcomp, hcons', hrange'⟩ := pySolve_sound hsh hrange hcons hres
    exact ⟨hext, (fullyValid_iff b').mpr ⟨hcomp, hcons', hrange'⟩⟩

/-- C1, witness: the amended theorem applied to the empty board and the
identity shuffle stream. -/
theorem solve_correct_witness :
    ShPerm shW ∧ InRange emptyVB ∧ Consistent emptyVB ∧
    (((pySolve shW emptyVB).isSome = true ↔
        ∃ e, Extends emptyVB e ∧ FullyValid e) ∧
      (∀ b', pySolve shW emptyVB = some b' →
        Extends emptyVB b' ∧ FullyValid b')) :=
  ⟨shW_perm, by decide, by decide,
    solve_correct shW emptyVB shW_perm (by decide) (by decide)⟩

/-- C2: for difficulty 1, 2, or 3, a seed clue in 1–9, a permutation shuffle
stream, and a shuffled position list, `generate_puzzle` leaves exactly
`81 - {41, 51, 56}[difficulty]` nonzero cells, every nonzero cell is a clue
(`original = true`), and every removed cell has value 0 and
`original = false`. -/
theorem generatePuzzle_clues (sh : Nat → List Nat) (v : Nat) (ps : List Pos)
    (now : Int) (g : GameState) (d : Int) (hsh : ShPerm sh)
    (hv1 : 1 ≤ v) (hv9 : v ≤ 9) (hps : ps.Perm allPositions)
    (hd : d = 1 ∨ d = 2 ∨ d = 3) :
    clueCount (generatePuzzle sh v ps now g d).board = 81 - cellsToRemove d ∧
    cellsToRemove d = (if d = 1 then 41 else if d = 2 then 51 else 56) ∧
    (∀ p ∈ allPositions,
      ((generatePuzzle sh v ps now g d).board p).value ≠ 0 →
      ((generatePuzzle sh v ps now g d).board p).original = true) ∧
    (∀ p ∈ ps.take (cellsToRemove d),
      ((generatePuzzle sh v ps now g d).board p).value = 0 ∧
      ((generatePuzzle sh v ps now g d).board p).original = false) := by
  have hk : cellsToRemove d ≤ 81 := by
    unfold cellsToRemove; split_ifs <;> omega
  obtain ⟨h1, h2, h3⟩ := generatePuzzle_spec hsh hv1 hv9 hps now g d hk
  refine ⟨h1, ?_, h2, h3⟩
  rcases hd with rfl | rfl | rfl <;> rfl

/-- C2, witness: difficulty 1, seed clue 5, the unshuffled position list. -/
theorem generatePuzzle_clues_witness :
    ShPerm shW ∧ (1 : Nat) ≤ 5 ∧ (5 : Nat) ≤ 9 ∧
    allPositions.Perm allPositions ∧
    ((1 : Int) = 1 ∨ (1 : Int) = 2 ∨ (1 : Int) = 3) ∧
    (clueCount (generatePuzzle shW 5 allPositions 0 initGame 1).board =
        81 - cellsToRemove 1 ∧
      cellsToRemove 1 =
        (if (1 : Int) = 1 then 41 else if (1 : Int) = 2 then 51 else 56) ∧
      (∀ p ∈ allPositions,
        ((generatePuzzle shW 5 allPositions 0 initGame 1).board p).value ≠ 0 →
        ((generatePuzzle shW 5 allPositions 0 initGame 1).board p).original
          = true) ∧
      (∀ p ∈ allPositions.take (cellsToRemove 1),
        ((generatePuzzle shW 5 allPositions 0 initGame 1).board p).value = 0 ∧
        ((generatePuzzle shW 5 allPositions 0 initGame 1).board p).original
          = false)) :=
  ⟨shW_perm, by decide, by decide, List.Perm.refl _, Or.inl rfl,
    generatePuzzle_clues shW 5 allPositions 0 initGame 1 shW_perm
      (by decide) (by decide) (List.Perm.refl _) (Or.inl rfl)⟩

/-- C3: immediately after `update_conflicts` runs with `auto_check` on, a
cell is flagged iff some other cell of its row, column, or box holds the
same nonzero value; in particular an empty cell is never flagged. -/
theorem updateConflicts_spec (g : GameState) (hauto : g.auto_check = true)
    (q : Pos) (hq1 : q.1 < 9) (hq2 : q.2 < 9) :
    ((((updateConflicts g).board q).has_conflict = true) ↔
      (∃ s : Pos, s.1 < 9 ∧ s.2 < 9 ∧ s ≠ q ∧ sameUnit q s ∧
        (g.board s).value = (g.board q).value ∧ (g.board q).value ≠ 0)) ∧
    ((g.board q).value = 0 →
      ((updateConflicts g).board q).has_conflict = false) := by
  have hb : (updateConflicts g).board = allPositions.foldl flagStep
      fun p => { g.board p with has_conflict := false } := by
    unfold updateConflicts
    rw [hauto]
    simp only [Bool.not_true, Bool.false_eq_true, if_false]
  have hmain : (((updateConflicts g).board q).has_conflict = true) ↔
      (∃ s : Pos, s.1 < 9 ∧ s.2 < 9 ∧ s ≠ q ∧ sameUnit q s ∧
        (g.board s).value = (g.board q).value ∧ (g.board q).value ≠ 0) := by
    rw [hb, foldl_flagStep_conflict]
    show ((false || _) = true) ↔ _
    rw [Bool.false_or]
    exact any_flagCond_iff hq1 hq2
  refine ⟨hmain, fun h0 => ?_⟩
  rcases hflag : ((updateConflicts g).board q).has_conflict with _ | _
  · rfl
  · obtain ⟨s, _, _, _, _, _, hne⟩ := hmain.mp hflag
    exact absurd h0 hne

/-- C3, witness: the theorem applied to the fresh (empty) game at cell
`(0, 0)`. -/
theorem updateConflicts_spec_witness :
    initGame.auto_check = true ∧
    (((((updateConflicts initGame).board (0, 0)).has_conflict = true) ↔
      (∃ s : Pos, s.1 < 9 ∧ s.2 < 9 ∧ s ≠ (0, 0) ∧ sameUnit (0, 0) s ∧
        (initGame.board s).value = (initGame.board (0, 0)).value ∧
        (initGame.board (0, 0)).value ≠ 0)) ∧
      ((initGame.board (0, 0)).value = 0 →
        ((updateConflicts initGame).board (0, 0)).has_conflict = false)) :=
  ⟨rfl, updateConflicts_spec initGame rfl (0, 0) (by decide) (by decide)⟩

/-- C4: a non-note move on a non-clue cell whose value fails the
row/column/box exclusivity check is rejected, charges exactly one mistake,
and leaves the target cell's value and notes unchanged. -/
theorem makeMove_conflict_rejected (g : GameState) (row col num : Nat)
    (horig : (g.board (row, col)).original = false)
    (hvalid : isValid (cellValues g.board) (row, col) num = false) :
    (makeMove g row col num false).2 = false ∧
    (makeMove g row col num false).1.mistakes = g.mistakes + 1 ∧
    ((makeMove g row col num false).1.board (row, col)).value =
      (g.board (row, col)).value ∧
    ((makeMove g row col num false).1.board (row, col)).notes =
      (g.board (row, col)).notes := by
  have h : makeMove g row col num false =
      ({ g with mistakes := g.mistakes + 1 }, false) := by
    unfold makeMove
    rw [horig, hvalid]
    simp
  rw [h]
  exact ⟨rfl, rfl, rfl, rfl⟩

/-- C4, witness: place 5 at `(0, 1)` while `(0, 0)` already holds 5. -/
theorem makeMove_conflict_rejected_witness :
    (gBoard5.board (0, 1)).original = false ∧
    isValid (cellValues gBoard5.board) (0, 1) 5 = false ∧
    ((makeMove gBoard5 0 1 5 false).2 = false ∧
      (makeMove gBoard5 0 1 5 false).1.mistakes = gBoard5.mistakes + 1 ∧
      ((makeMove gBoard5 0 1 5 false).1.board (0, 1)).value =
        (gBoard5.board (0, 1)).value ∧
      ((makeMove gBoard5 0 1 5 false).1.board (0, 1)).notes =
        (gBoard5.board (0, 1)).notes) :=
  ⟨by decide, by decide,
    makeMove_conflict_rejected gBoard5 0 1 5 (by decide) (by decide)⟩

/-- C5: any move (note mode or not) on a clue cell is rejected and changes
nothing at all. -/
theorem makeMove_original_rejected (g : GameState) (row col num : Nat)
    (note_mode : Bool) (horig : (g.board (row, col)).original = true) :
    makeMove g row col num note_mode = (g, false) := by
  unfold makeMove
  rw [horig]
  simp

/-- C5, witness: both note modes on the clue cell `(0, 0)` of `gClue5`. -/
theorem makeMove_original_rejected_witness :
    (gClue5.board (0, 0)).original = true ∧
    makeMove gClue5 0 0 7 false = (gClue5, false) ∧
    makeMove gClue5 0 0 7 true = (gClue5, false) :=
  ⟨by decide, makeMove_original_rejected gClue5 0 0 7 false (by decide),
    makeMove_original_rejected gClue5 0 0 7 true (by decide)⟩

/-- C6: `use_hint` returns false and changes nothing when the hint budget is
exhausted, when the selected cell is a clue, when it is already filled, or
when the scratch solve fails; on success it writes the solved value into the
selected cell, promotes it to a clue, and spends one hint. -/
theorem useHint_spec (sh : Nat → List Nat) (g : GameState) :
    (g.hint_count ≤ 0 → useHint sh g = (g, false)) ∧
    ((g.board g.selected_cell).original = true → useHint sh g = (g, false)) ∧
    ((g.board g.selected_cell).value ≠ 0 → useHint sh g = (g, false)) ∧
    (pySolve sh (cellValues g.board) = none → useHint sh g = (g, false)) ∧
    (∀ sol, 0 < g.hint_count → (g.board g.selected_cell).original = false →
      (g.board g.selected_cell).value = 0 →
      pySolve sh (cellValues g.board) = some sol →
      useHint sh g =
        ({ g with
            board := Function.update g.board g.selected_cell
              { g.board g.selected_cell with
                  value := sol g.selected_cell, original := true },
            hint_count := g.hint_count - 1 }, true)) := by
  refine ⟨?_, ?_, ?_, ?_, ?_⟩
  · intro h
    unfold useHint
    rw [if_pos h]
  · intro h
    unfold useHint
    by_cases hh : g.hint_count ≤ 0
    · rw [if_pos hh]
    · rw [if_neg hh]
      simp only [h, Bool.true_or, if_true]
  · intro h
    unfold useHint
    by_cases hh : g.hint_count ≤ 0
    · rw [if_pos hh]
    · rw [if_neg hh]
      have : ((g.board g.selected_cell).value != 0) = true := by simpa using h
      simp only [this, Bool.or_true, if_true]
  · intro h
    unfold useHint
    by_cases hh : g.hint_count ≤ 0
    · rw [if_pos hh]
    · rw [if_neg hh]
      by_cases hg : ((g.board g.selected_cell).original ||
          ((g.board g.selected_cell).value != 0)) = true
      · simp only [hg, if_true]
      · simp [hg, h]
  · intro sol hpos horig hval hsol
    unfold useHint
    rw [if_neg (by omega)]
    have hg : ((g.board g.selected_cell).original ||
        ((g.board g.selected_cell).value != 0)) = false := by
      simp [horig, hval]
    simp [hg, hsol]

/-- C6, witness: an exhausted hint budget makes `use_hint` a rejected
no-op. -/
theorem useHint_spec_witness :
    gHint0.hint_count ≤ 0 ∧ useHint shW gHint0 = (gHint0, false) :=
  ⟨by decide, (useHint_spec shW gHint0).1 (by decide)⟩

/-- C7 (code-bug evaluation): `make_move` never touches the history — the
undo stack (`moves_history`) and redo stack, initialised empty in
`__init__`, stay empty after an accepted move instead of receiving the Move
record the specification describes; shown both in general and on the
concrete accepted move 5 at `(0, 1)` of a fresh game. -/
theorem makeMove_no_history :
    (∀ (g : GameState) (row col num : Nat) (note_mode : Bool),
      (makeMove g row col num note_mode).1.moves_history = g.moves_history ∧
      (makeMove g row col num note_mode).1.redo_stack = g.redo_stack) ∧
    (makeMove initGame 0 1 5 false).2 = true ∧
    ((makeMove initGame 0 1 5 false).1.board (0, 1)).value = 5 ∧
    (makeMove initGame 0 1 5 false).1.moves_history = [] ∧
    (makeMove initGame 0 1 5 false).1.redo_stack = [] := by
  refine ⟨fun g row col num note_mode => ?_, by decide, by decide, by decide,
    by decide⟩
  unfold makeMove
  split_ifs <;> exact ⟨rfl, rfl⟩

/-- C8: `calculate_score` is exactly
`max(0, 1000 + (difficulty-1)*500 - floor(elapsed/30) - mistakes*50 -
(3-hint_count)*100)`, and the specification's scenario (difficulty 1,
90 s elapsed, 2 mistakes, 2 hints left) scores 797. -/
theorem calculateScore_spec :
    (∀ (g : GameState) (now : Int),
      calculateScore g now =
        max 0 (1000 + (g.difficulty - 1) * 500 -
          Int.fdiv (getElapsedTime g now) 30 -
          (g.mistakes : Int) * 50 - (3 - g.hint_count) * 100)) ∧
    getElapsedTime gScore 100 = 90 ∧
    calculateScore gScore 100 = 797 :=
  ⟨fun g now => rfl, by decide, by decide⟩

/-- C9 (code-bug evaluation): while paused, `get_elapsed_time` computes
`pause_time - start_time - pause_time`, i.e. `-start_time`: for a session
started at 100 and paused at 160 (elapsed 60 at that moment) it returns
-100 at every later instant — frozen, but not at the elapsed time when the
pause began. -/
theorem getElapsedTime_paused_bug :
    getElapsedTime gRun 160 = 60 ∧
    (pauseGame gRun 160).is_paused = true ∧
    (∀ now : Int, getElapsedTime (pauseGame gRun 160) now = -100) :=
  ⟨by decide, rfl, fun _ => rfl⟩

/-- C10: for any difficulty outside {1, 2, 3}, `generate_puzzle` falls back
to the easy-level count: it removes 41 cells and leaves exactly 40 clues. -/
theorem generatePuzzle_default (sh : Nat → List Nat) (v : Nat) (ps : List Pos)
    (now : Int) (g : GameState) (d : Int) (hsh : ShPerm sh)
    (hv1 : 1 ≤ v) (hv9 : v ≤ 9) (hps : ps.Perm allPositions)
    (hd1 : d ≠ 1) (hd2 : d ≠ 2) (hd3 : d ≠ 3) :
    cellsToRemove d = 41 ∧
    (ps.take (cellsToRemove d)).length = 41 ∧
    clueCount (generatePuzzle sh v ps now g d).board = 40 := by
  have hc : cellsToRemove d = 41 := by
    unfold cellsToRemove
    rw [if_neg hd1, if_neg hd2, if_neg hd3]
  obtain ⟨h1, _, _⟩ := generatePuzzle_spec hsh hv1 hv9 hps now g d (by omega)
  refine ⟨hc, ?_, ?_⟩
  · simp [List.length_take, hps.length_eq, allPositions_length, hc]
  · rw [h1, hc]

/-- C10, witness: difficulty 7. -/
theorem generatePuzzle_default_witness :
    ShPerm shW ∧ (1 : Nat) ≤ 5 ∧ (5 : Nat) ≤ 9 ∧
    allPositions.Perm allPositions ∧
    (7 : Int) ≠ 1 ∧ (7 : Int) ≠ 2 ∧ (7 : Int) ≠ 3 ∧
    (cellsToRemove 7 = 41 ∧
      (allPositions.take (cellsToRemove 7)).length = 41 ∧
      clueCount (generatePuzzle shW 5 allPositions 0 initGame 7).board = 40) :=
  ⟨shW_perm, by decide, by decide, List.Perm.refl _, by decide, by decide,
    by decide,
    generatePuzzle_default shW 5 allPositions 0 initGame 7 shW_perm
      (by decide) (by decide) (List.Perm.refl _) (by decide) (by decide)
      (by decide)⟩

end Sudoku
